import Mathlib

/-
Verification of the SPV (Simplified Payment Verification) core of
Electron-Cash-SLP, `lib/verifier.py`, against its natural-language
specification.

The development shallowly embeds the `SPV` class:
  * `hash_merkle_root` (the pure Merkle-branch verifier),
  * `run` (the periodic scheduler tick),
  * `verify_merkle` (the asynchronous response handler),
  * `undo_verifications` / `remove_spv_proof_for_tx` (reorg reconciliation),
  * `is_up_to_date`, `release` / `_release` (deferred teardown).

External collaborators (network transport, wallet store, header chain) are
modelled as explicit environment records; calls out to them are recorded as
effects.  Python integers are `Int` (with `Int.fdiv` / `%` = `Int.emod`
matching Python's arithmetic shift and floor-mod), Python dicts and sets are
association lists and membership lists, and fallible decoding returns
`Option`.
-/

/-! ## Hashes and decoding

A hash travels on the wire / in dict keys in its display form and is
processed internally in its byte form.  `hash_decode`, `hash_encode` and the
double-hash `Hash` live in `lib/bitcoin.py`, which is not part of the sources
here; they are modelled from the spec. -/

/-- Display (wire) form of a hash, as used for dict/set keys. -/
abbrev TxHash := List Nat

/-- Decoded byte form of a hash. -/
abbrev Bytes := List Nat

/-- Modelled from the spec: `hash_decode` (from the absent `lib/bitcoin.py`)
turns the wire form of a fixed-length (32-byte) hash into its reversed byte
form; an input that is not a valid fixed-length hash fails, surfacing in the
caller as the `MalformedProof` exception. -/
def hash_decode (s : TxHash) : Option Bytes :=
  if s.length = 32 ∧ ∀ b ∈ s, b < 256 then some s.reverse else none

/-- Modelled from the spec: `hash_encode`, the inverse of `hash_decode` on
valid hashes (byte reversal back to wire form). -/
def hash_encode (b : Bytes) : TxHash :=
  b.reverse

/-- Python's `(pos >> i) & 1` truth test: arithmetic right shift is floor
division by `2 ^ i` (`Int.fdiv`), and `& 1` on a Python int is floor-mod 2
(`Int.emod`, written `%`). -/
def pyBit (pos : Int) (i : Nat) : Bool :=
  (pos.fdiv (2 ^ i)) % 2 = 1

/-- The `for i, item in enumerate(merkle_s)` loop body of
`SPV.hash_merkle_root`: `h = Hash(hash_decode(item) + h) if ((pos >> i) & 1)
else Hash(h + hash_decode(item))`.  The double-hash `Hash` (external, from
`lib/bitcoin.py`) is the parameter `dh`; a sibling that fails to decode
aborts the computation (Python exception). -/
def hmrLoop (dh : Bytes → Bytes) (pos : Int) : List TxHash → Nat → Bytes → Option Bytes
  | [], _, h => some h
  | item :: rest, i, h =>
    match hash_decode item with
    | none => none
    | some d =>
      hmrLoop dh pos rest (i + 1) (if pyBit pos i then dh (d ++ h) else dh (h ++ d))

/-- Embedding of `SPV.hash_merkle_root(merkle_s, target_hash, pos)`: decode the target
hash, fold the sibling branch over it, re-encode.  `none` models the raised
exception (`MalformedProof`) that `verify_merkle` catches. -/
def hash_merkle_root (dh : Bytes → Bytes) (merkle_s : List TxHash)
    (target_hash : TxHash) (pos : Int) : Option TxHash :=
  match hash_decode target_hash with
  | none => none
  | some h0 => (hmrLoop dh pos merkle_s 0 h0).map hash_encode

/-! ## Spec-side Merkle algorithm (for the refinement claim C1) -/

/-- Spec-side combine loop, following the spec's words: for the sibling at
0-based index `i` in root-ward order, if bit `i` of `position` is 1 then the
current node is the right child (`dh (sibling ++ h)`), else the left child
(`dh (h ++ sibling)`). -/
def specCombine (dh : Bytes → Bytes) (position : Nat) : List Bytes → Nat → Bytes → Bytes
  | [], _, h => h
  | sib :: rest, i, h =>
    specCombine dh position rest (i + 1)
      (if position.testBit i then dh (sib ++ h) else dh (h ++ sib))

/-- Spec-side `computeMerkleRoot`: start with `h = leafHash`, consume the
siblings root-ward from index 0, return the final `h`. -/
def computeMerkleRootSpec (dh : Bytes → Bytes) (siblings : List Bytes)
    (leafHash : Bytes) (position : Nat) : Bytes :=
  specCombine dh position siblings 0 leafHash

/-- Decode a whole sibling branch; `none` as soon as one item is invalid. -/
def decodeAll : List TxHash → Option (List Bytes)
  | [] => some []
  | x :: xs =>
    match hash_decode x, decodeAll xs with
    | some d, some ds => some (d :: ds)
    | _, _ => none

/-! ### Bridge: Python's bit test agrees with `Nat.testBit` on non-negative
positions -/

theorem pyBit_iff_testBit (p i : Nat) :
    ((((p : Int)).fdiv ((2 : Int) ^ i)) % 2 = 1) ↔ p.testBit i := by
  have h1 : ((2 : Int) ^ i) = ((2 ^ i : Nat) : Int) := by push_cast; ring
  rw [h1, ← Int.ofNat_fdiv]
  rw [Nat.testBit_to_div_mod]
  have h2 : ∀ q : Nat, ((q : Int) % 2 = 1) ↔ (q % 2 = 1) := by
    intro q
    omega
  rw [h2 (p / 2 ^ i)]
  exact Iff.symm decide_eq_true_iff

theorem pyBit_natCast (p i : Nat) : pyBit (p : Int) i = p.testBit i := by
  rw [Bool.eq_iff_iff]
  simp only [pyBit, decide_eq_true_iff]
  exact pyBit_iff_testBit p i

/-- The loop of `hash_merkle_root` at a cast non-negative position computes
the spec-side combine of the decoded siblings, from any start index. -/
theorem hmrLoop_eq_specCombine (dh : Bytes → Bytes) (p : Nat) :
    ∀ (l : List TxHash) (sibs : List Bytes) (i : Nat) (h : Bytes),
      decodeAll l = some sibs →
      hmrLoop dh (p : Int) l i h = some (specCombine dh p sibs i h) := by
  intro l
  induction l with
  | nil =>
    intro sibs i h hdec
    simp only [decodeAll] at hdec
    cases hdec
    rfl
  | cons x xs ih =>
    intro sibs i h hdec
    simp only [decodeAll] at hdec
    cases hx : hash_decode x with
    | none => rw [hx] at hdec; cases hdec
    | some d =>
      rw [hx] at hdec
      cases hxs : decodeAll xs with
      | none => rw [hxs] at hdec; cases hdec
      | some ds =>
        rw [hxs] at hdec
        cases hdec
        simp only [hmrLoop, hx, specCombine, pyBit_natCast]
        exact ih ds (i + 1) _ hxs

/-- C1: for every leaf hash, sibling branch and non-negative position (all
well-formed), `hash_merkle_root` starts with `h = leafHash` and combines each
sibling at index `i` as `dh (sibling ++ h)` when bit `i` of the position is 1
and as `dh (h ++ sibling)` when it is 0, returning the final `h`
(re-encoded), i.e. it computes the spec's `computeMerkleRoot`. -/
theorem C1_hash_merkle_root_follows_spec (dh : Bytes → Bytes)
    (merkle_s : List TxHash) (target_hash : TxHash) (p : Nat)
    (leaf : Bytes) (sibs : List Bytes)
    (hleaf : hash_decode target_hash = some leaf)
    (hsibs : decodeAll merkle_s = some sibs) :
    hash_merkle_root dh merkle_s target_hash (p : Int) =
      some (hash_encode (computeMerkleRootSpec dh sibs leaf p)) := by
  simp only [hash_merkle_root, hleaf, computeMerkleRootSpec]
  rw [hmrLoop_eq_specCombine dh p merkle_s sibs 0 leaf hsibs]
  rfl

/-- Concrete double-hash instance used for witnesses only. -/
def dhC : Bytes → Bytes :=
  fun b => List.replicate 32 (b.foldl Nat.add 0 % 256)

/-- Concrete well-formed leaf hash used for witnesses only. -/
def leafC : TxHash := List.replicate 32 1

/-- Concrete well-formed sibling hash used for witnesses only. -/
def sibC : TxHash := List.replicate 32 2

theorem C1_hash_merkle_root_follows_spec_witness :
    hash_merkle_root dhC [sibC] leafC ((5 : Nat) : Int) =
      some (hash_encode (computeMerkleRootSpec dhC [sibC.reverse] leafC.reverse 5)) :=
  C1_hash_merkle_root_follows_spec dhC [sibC] leafC 5 leafC.reverse [sibC.reverse]
    (by decide) (by decide)

/-- C8: with an empty sibling sequence and a well-formed leaf hash,
`hash_merkle_root` returns the leaf hash unchanged, for every non-negative
position. -/
theorem C8_empty_siblings_identity (dh : Bytes → Bytes) (target_hash : TxHash)
    (pos : Int) (_hpos : 0 ≤ pos) (hvalid : (hash_decode target_hash).isSome) :
    hash_merkle_root dh [] target_hash pos = some target_hash := by
  by_cases hc : target_hash.length = 32 ∧ ∀ b ∈ target_hash, b < 256
  · simp only [hash_merkle_root, hash_decode, if_pos hc, hmrLoop, Option.map_some']
    simp [hash_encode]
  · simp only [hash_decode, if_neg hc, Option.isSome_none] at hvalid
    cases hvalid

theorem C8_empty_siblings_identity_witness :
    hash_merkle_root dhC [] leafC 0 = some leafC :=
  C8_empty_siblings_identity dhC leafC 0 (by decide) (by decide)

/-- The loop of `hash_merkle_root` only looks at the position through the
bits at the indices of the siblings it consumes. -/
theorem hmrLoop_congr_bits (dh : Bytes → Bytes) (p q : Int) :
    ∀ (l : List TxHash) (i : Nat) (h : Bytes),
      (∀ j, j < l.length → pyBit p (i + j) = pyBit q (i + j)) →
      hmrLoop dh p l i h = hmrLoop dh q l i h := by
  intro l
  induction l with
  | nil => intro i h _; rfl
  | cons x xs ih =>
    intro i h hbits
    simp only [hmrLoop]
    cases hash_decode x with
    | none => rfl
    | some d =>
      have h0 : pyBit p i = pyBit q i := by
        have hx := hbits 0 (by simp)
        simpa using hx
      rw [h0]
      refine ih (i + 1) _ (fun j hj => ?_)
      have hx := hbits (j + 1) (by simp only [List.length_cons]; omega)
      have he : i + (j + 1) = i + 1 + j := by omega
      rw [he] at hx
      exact hx

/-- C10: positions that agree on their low `n` bits (`n` = number of
siblings) produce the same result: bits of the position at or above index
`n` are silently ignored by `hash_merkle_root`. -/
theorem C10_high_position_bits_ignored (dh : Bytes → Bytes)
    (merkle_s : List TxHash) (target_hash : TxHash) (p q : Nat)
    (hmod : p % 2 ^ merkle_s.length = q % 2 ^ merkle_s.length) :
    hash_merkle_root dh merkle_s target_hash (p : Int) =
      hash_merkle_root dh merkle_s target_hash (q : Int) := by
  unfold hash_merkle_root
  cases hash_decode target_hash with
  | none => rfl
  | some h0 =>
    dsimp only
    rw [hmrLoop_congr_bits dh (p : Int) (q : Int) merkle_s 0 h0 ?_]
    intro j hj
    rw [pyBit_natCast, pyBit_natCast]
    have hp : p.testBit (0 + j) = (p % 2 ^ merkle_s.length).testBit (0 + j) := by
      rw [Nat.testBit_mod_two_pow]
      simp only [Nat.zero_add]
      rw [decide_eq_true hj]
      simp
    have hq : q.testBit (0 + j) = (q % 2 ^ merkle_s.length).testBit (0 + j) := by
      rw [Nat.testBit_mod_two_pow]
      simp only [Nat.zero_add]
      rw [decide_eq_true hj]
      simp
    rw [hp, hq, hmod]

theorem C10_high_position_bits_ignored_witness :
    hash_merkle_root dhC [sibC] leafC ((0 : Nat) : Int) =
      hash_merkle_root dhC [sibC] leafC ((2 : Nat) : Int) :=
  C10_high_position_bits_ignored dhC [sibC] leafC 0 2 (by decide)

/-! ## Scheduler state

`SPV.__init__` sets up: `merkle_roots` (dict txid -> verified merkle root),
`requested_merkle` (set of pending txids), `qbusy`, `cleaned_up`,
`_need_release`, and the observed `blockchain` identity. -/

/-- Block header as read from the header chain; the core reads only
`merkle_root` and `timestamp`. -/
structure Header where
  merkle_root : TxHash
  timestamp : Int
deriving DecidableEq

/-- The mutable fields of the `SPV` job. -/
structure SPVState where
  merkle_roots : List (TxHash × TxHash)
  requested_merkle : List TxHash
  qbusy : Bool
  cleaned_up : Bool
  need_release : Bool
  blockchain_id : Nat
deriving DecidableEq

/-- Keys of a Python dict modelled as an association list. -/
def dictKeys (l : List (TxHash × TxHash)) : List TxHash :=
  l.map Prod.fst

/-- Python dict assignment `d[k] = v`: replace the stored value in place if
the key is present, append otherwise. -/
def dictInsert (l : List (TxHash × TxHash)) (k v : TxHash) : List (TxHash × TxHash) :=
  if k ∈ dictKeys l then l.map (fun p => if p.1 = k then (k, v) else p)
  else l ++ [(k, v)]

/-- Python `dict.pop(k, None)`: drop the key if present. -/
def dictPop (l : List (TxHash × TxHash)) (k : TxHash) : List (TxHash × TxHash) :=
  l.filter (fun p => p.1 ≠ k)

/-- Python `set.add`. -/
def setAdd (l : List TxHash) (t : TxHash) : List TxHash :=
  if t ∈ l then l else l ++ [t]

/-- Python `set.discard`. -/
def setDiscard (l : List TxHash) (t : TxHash) : List TxHash :=
  l.filter (fun x => x ≠ t)

/-- Embedding of `SPV.__init__`: both containers empty, all flags clear, remembering the
currently observed blockchain identity. -/
def initState (bid : Nat) : SPVState :=
  { merkle_roots := [], requested_merkle := [], qbusy := false,
    cleaned_up := false, need_release := false, blockchain_id := bid }

/-- Embedding of `SPV.is_up_to_date`: true iff there are no pending requests. -/
def is_up_to_date (s : SPVState) : Bool :=
  s.requested_merkle.isEmpty

/-- Embedding of `SPV.release` (called from the main thread): only records the intent to
release; the actual teardown happens at the start of the next tick. -/
def release (s : SPVState) : SPVState :=
  { s with need_release := true }

/-- Embedding of `SPV.remove_spv_proof_for_tx`: drop a transaction from the verified map
and the pending set. -/
def remove_spv_proof_for_tx (tx : TxHash) (s : SPVState) : SPVState :=
  { s with merkle_roots := dictPop s.merkle_roots tx,
           requested_merkle := setDiscard s.requested_merkle tx }

/-- Embedding of `SPV.undo_verifications`, applied to the list of transaction hashes the
wallet store reports as undone above the new base height: remove each from
both containers, then clear `qbusy` unconditionally. -/
def undo_verifications (txs : List TxHash) (s : SPVState) : SPVState :=
  { (txs.foldl (fun st tx => remove_spv_proof_for_tx tx st) s) with qbusy := false }

/-! ## Response handler -/

/-- Logical shape of a proof-request response: optional transport error,
`params[0]` (the transaction hash), and the `result` fields `block_height`,
`pos` and `merkle` (siblings, root-ward order). -/
structure Response where
  error : Bool
  tx_hash : TxHash
  block_height : Int
  pos : Int
  merkle : List TxHash
deriving DecidableEq

/-- Environment of `verify_merkle`: the current blockchain's header reader
and the wallet's sync status. -/
structure VerifyEnv where
  read_header : Int → Option Header
  wallet_up_to_date : Bool

/-- Observable calls `verify_merkle` makes to its collaborators (the wallet
store and the notification system); `logError` stands for the
`print_error` calls on the failure paths. -/
inductive WalletEffect where
  | logError
  | add_verified_tx (tx : TxHash) (height : Int) (timestamp : Int) (pos : Int)
  | save_verified_tx
  | wallet_updated
deriving DecidableEq

/-- Embedding of `SPV.verify_merkle(response)`: ignore orphan callbacks after cleanup;
log and return on a transport error, a failed root computation, a missing
header, or a root mismatch; otherwise record the verified root, drop the
pending marker, tell the wallet, and possibly persist + notify. -/
def verify_merkle (dh : Bytes → Bytes) (env : VerifyEnv) (s : SPVState)
    (r : Response) : SPVState × List WalletEffect :=
  if s.cleaned_up then (s, [])
  else if r.error then (s, [.logError])
  else
    match hash_merkle_root dh r.merkle r.tx_hash r.pos with
    | none => (s, [.logError])
    | some merkle_root =>
      match env.read_header r.block_height with
      | none => (s, [.logError])
      | some header =>
        if header.merkle_root ≠ merkle_root then (s, [.logError])
        else
          let s' : SPVState :=
            { s with merkle_roots := dictInsert s.merkle_roots r.tx_hash merkle_root,
                     requested_merkle := setDiscard s.requested_merkle r.tx_hash }
          (s',
           if is_up_to_date s' && env.wallet_up_to_date && !s'.qbusy then
             [.add_verified_tx r.tx_hash r.block_height header.timestamp r.pos,
              .save_verified_tx, .wallet_updated]
           else
             [.add_verified_tx r.tx_hash r.block_height header.timestamp r.pos])

/-! ## Scheduler tick -/

/-- Observable calls `run` makes to its collaborators: teardown
(cancelling requests, deregistering the job), header-chunk fetches, proof
requests, and the reorg undo query against the wallet store. -/
inductive RunEffect where
  | cancel_requests
  | remove_jobs
  | request_chunk (index : Int)
  | request_merkle (tx : TxHash) (height : Int)
  | undo_query (height : Int)
deriving DecidableEq

/-- Environment of one `run` tick: interface/blockchain availability, local
height, the wallet's unverified map (in iteration order), the header reader,
the checkpoint boundary (`networks.net.VERIFICATION_BLOCK_HEIGHT`), the
transport's per-transaction accept/busy answer, the transport's current
blockchain identity, and the reorg data (`get_base_height`, the wallet's
`undo_verifications` answer). -/
structure RunEnv where
  has_interface : Bool
  has_blockchain : Bool
  local_height : Int
  unverified : List (TxHash × Int)
  read_header : Int → Option Header
  verification_block_height : Int
  get_merkle : TxHash → Int → Option Nat
  current_blockchain_id : Nat
  base_height : Int
  undo_result : List TxHash

/-- Embedding of `SPV._release` (executed inside the network thread at the start of a
tick): clear the deferred flag, mark the job cleaned up, cancel the job's
outstanding requests and deregister it. -/
def releaseInRun (s : SPVState) : SPVState × List RunEffect :=
  ({ s with need_release := false, cleaned_up := true },
   [.cancel_requests, .remove_jobs])

/-- The `for tx_hash, tx_height in unverified.items()` loop of `SPV.run`:
skip transactions already pending or verified, skip heights outside
`(0, local_height]`, request a header chunk when a checkpoint-region header
is missing, and otherwise issue a proof request — recording `qbusy` from the
transport's answer and stopping the scan (`break`) when it is busy. -/
def runLoop (env : RunEnv) : List (TxHash × Int) → SPVState → SPVState × List RunEffect
  | [], s => (s, [])
  | (tx, h) :: rest, s =>
    if tx ∈ s.requested_merkle ∨ tx ∈ dictKeys s.merkle_roots then
      runLoop env rest s
    else if h ≤ 0 ∨ env.local_height < h then
      runLoop env rest s
    else
      match env.read_header h with
      | none =>
        if h ≤ env.verification_block_height then
          let lp := runLoop env rest s
          (lp.1, .request_chunk (h.fdiv 2016) :: lp.2)
        else
          runLoop env rest s
      | some _ =>
        match env.get_merkle tx h with
        | none => ({ s with qbusy := true }, [.request_merkle tx h])
        | some _ =>
          let lp := runLoop env rest
            { s with qbusy := false, requested_merkle := setAdd s.requested_merkle tx }
          (lp.1, .request_merkle tx h :: lp.2)

/-- Embedding of `SPV.run` (one scheduler tick): deferred teardown first, then no-op if
cleaned up or if the interface/blockchain is unavailable, then the scan
loop, then the blockchain-identity comparison triggering
`undo_verifications`. -/
def run (env : RunEnv) (s : SPVState) : SPVState × List RunEffect :=
  let pre := if s.need_release then releaseInRun s else (s, [])
  if pre.1.cleaned_up then pre
  else if !env.has_interface then pre
  else if !env.has_blockchain then pre
  else
    let lp := runLoop env env.unverified pre.1
    if env.current_blockchain_id ≠ lp.1.blockchain_id then
      (undo_verifications env.undo_result
         { lp.1 with blockchain_id := env.current_blockchain_id },
       pre.2 ++ lp.2 ++ [.undo_query env.base_height])
    else
      (lp.1, pre.2 ++ lp.2)

/-! ## Container lemmas -/

theorem mem_setAdd {l : List TxHash} {x t : TxHash} :
    t ∈ setAdd l x ↔ t ∈ l ∨ t = x := by
  unfold setAdd
  by_cases hx : x ∈ l
  · rw [if_pos hx]
    constructor
    · exact Or.inl
    · rintro (h | rfl)
      · exact h
      · exact hx
  · rw [if_neg hx]
    simp

theorem mem_setDiscard {l : List TxHash} {x t : TxHash} :
    t ∈ setDiscard l x ↔ t ∈ l ∧ t ≠ x := by
  unfold setDiscard
  simp

theorem mem_dictKeys_dictPop {l : List (TxHash × TxHash)} {k t : TxHash} :
    t ∈ dictKeys (dictPop l k) ↔ t ∈ dictKeys l ∧ t ≠ k := by
  unfold dictKeys dictPop
  simp only [List.mem_map, List.mem_filter]
  constructor
  · rintro ⟨p, ⟨hp, hpk⟩, rfl⟩
    simp only [decide_eq_true_iff] at hpk
    exact ⟨⟨p, hp, rfl⟩, hpk⟩
  · rintro ⟨⟨p, hp, rfl⟩, hk⟩
    exact ⟨p, ⟨hp, by simpa using hk⟩, rfl⟩

theorem dictKeys_map_replace (l : List (TxHash × TxHash)) (k v : TxHash) :
    dictKeys (l.map (fun p => if p.1 = k then (k, v) else p)) = dictKeys l := by
  unfold dictKeys
  rw [List.map_map]
  apply List.map_congr_left
  intro p _
  by_cases hpk : p.1 = k
  · simp [Function.comp, hpk]
  · simp [Function.comp, hpk]

theorem mem_dictKeys_dictInsert {l : List (TxHash × TxHash)} {k v t : TxHash} :
    t ∈ dictKeys (dictInsert l k v) ↔ t = k ∨ t ∈ dictKeys l := by
  unfold dictInsert
  by_cases hk : k ∈ dictKeys l
  · rw [if_pos hk, dictKeys_map_replace]
    constructor
    · exact Or.inr
    · rintro (rfl | h)
      · exact hk
      · exact h
  · rw [if_neg hk]
    simp only [dictKeys, List.map_append, List.mem_append, List.map_cons,
      List.map_nil, List.mem_cons, List.not_mem_nil, or_false]
    tauto

/-! ## C9: permanent inertness after teardown -/

/-- C9: once a requested release has been observed and teardown performed
(`cleaned_up` set, the deferred flag cleared by `_release`), the job is
permanently inert: every later tick returns with the state untouched and no
collaborator calls, and every later response callback is ignored, for all
environments and inputs. -/
theorem C9_inert_after_teardown (dh : Bytes → Bytes) (env : RunEnv)
    (venv : VerifyEnv) (r : Response) (s : SPVState)
    (hclean : s.cleaned_up = true) (hflag : s.need_release = false) :
    run env s = (s, []) ∧ verify_merkle dh venv s r = (s, []) := by
  constructor
  · simp only [run, hflag, Bool.false_eq_true, if_false, hclean, if_true]
  · simp only [verify_merkle, hclean, if_true]

/-- Concrete torn-down state for the C9 witness: a fresh job whose release
was requested and then performed at the start of a tick. -/
def tornDownC : SPVState :=
  (releaseInRun (release (initState 0))).1

/-- Concrete witness environments / response (success-shaped). -/
def hdrC : Header :=
  { merkle_root := leafC, timestamp := 7 }

def venvC : VerifyEnv :=
  { read_header := fun _ => some hdrC, wallet_up_to_date := true }

def rC : Response :=
  { error := false, tx_hash := leafC, block_height := 100, pos := 0, merkle := [] }

def envC : RunEnv :=
  { has_interface := true, has_blockchain := true, local_height := 200,
    unverified := [(leafC, 100)], read_header := fun _ => some hdrC,
    verification_block_height := 0, get_merkle := fun _ _ => some 1,
    current_blockchain_id := 0, base_height := 0, undo_result := [] }

theorem C9_inert_after_teardown_witness :
    run envC tornDownC = (tornDownC, []) ∧
    verify_merkle dhC venvC tornDownC rC = (tornDownC, []) :=
  C9_inert_after_teardown dhC envC venvC rC tornDownC (by rfl) (by rfl)

/-! ## C6: reorg reconciliation -/

theorem foldlRemove_shrinks (txs : List TxHash) :
    ∀ (s : SPVState) (t : TxHash),
      (t ∈ dictKeys (txs.foldl (fun st tx => remove_spv_proof_for_tx tx st) s).merkle_roots →
        t ∈ dictKeys s.merkle_roots) ∧
      (t ∈ (txs.foldl (fun st tx => remove_spv_proof_for_tx tx st) s).requested_merkle →
        t ∈ s.requested_merkle) := by
  induction txs with
  | nil => intro s t; exact ⟨id, id⟩
  | cons x xs ih =>
    intro s t
    simp only [List.foldl_cons]
    constructor
    · intro h
      have h1 := (ih (remove_spv_proof_for_tx x s) t).1 h
      simp only [remove_spv_proof_for_tx] at h1
      exact (mem_dictKeys_dictPop.mp h1).1
    · intro h
      have h1 := (ih (remove_spv_proof_for_tx x s) t).2 h
      simp only [remove_spv_proof_for_tx] at h1
      exact (mem_setDiscard.mp h1).1

theorem foldlRemove_removes (txs : List TxHash) :
    ∀ (s : SPVState) (t : TxHash), t ∈ txs →
      t ∉ dictKeys (txs.foldl (fun st tx => remove_spv_proof_for_tx tx st) s).merkle_roots ∧
      t ∉ (txs.foldl (fun st tx => remove_spv_proof_for_tx tx st) s).requested_merkle := by
  induction txs with
  | nil => intro s t ht; cases ht
  | cons x xs ih =>
    intro s t ht
    simp only [List.foldl_cons]
    rcases List.mem_cons.mp ht with rfl | hxs
    · by_cases hmem : t ∈ xs
      · exact ih _ t hmem
      · constructor
        · intro hcon
          have h1 := (foldlRemove_shrinks xs _ t).1 hcon
          simp only [remove_spv_proof_for_tx] at h1
          exact (mem_dictKeys_dictPop.mp h1).2 rfl
        · intro hcon
          have h1 := (foldlRemove_shrinks xs _ t).2 hcon
          simp only [remove_spv_proof_for_tx] at h1
          exact (mem_setDiscard.mp h1).2 rfl
    · exact ih _ t hxs

/-- C6: `undo_verifications`, for every prior state and every set of
transaction hashes returned by the wallet store's undo query, removes each
returned hash from both the verified map and the pending set, and sets
`qbusy` to false unconditionally — whatever its prior value and even when
the returned set is empty. -/
theorem C6_undo_verifications_behaviour (s : SPVState) (txs : List TxHash) :
    (undo_verifications txs s).qbusy = false ∧
    ∀ tx ∈ txs,
      tx ∉ dictKeys (undo_verifications txs s).merkle_roots ∧
      tx ∉ (undo_verifications txs s).requested_merkle := by
  refine ⟨rfl, fun tx htx => ?_⟩
  exact foldlRemove_removes txs s tx htx

theorem C6_undo_verifications_behaviour_witness :
    (undo_verifications [leafC] (initState 0)).qbusy = false ∧
    (leafC ∉ dictKeys (undo_verifications [leafC] (initState 0)).merkle_roots ∧
     leafC ∉ (undo_verifications [leafC] (initState 0)).requested_merkle) :=
  ⟨(C6_undo_verifications_behaviour (initState 0) [leafC]).1,
   (C6_undo_verifications_behaviour (initState 0) [leafC]).2 leafC (by simp)⟩

/-! ## C7: transport backpressure during the scan -/

/-- Once the scan has marked a transaction pending, no later step of the
same scan unmarks it. -/
theorem runLoop_requested_mono (env : RunEnv) :
    ∀ (l : List (TxHash × Int)) (s : SPVState) (t : TxHash),
      t ∈ s.requested_merkle → t ∈ (runLoop env l s).1.requested_merkle := by
  intro l
  induction l with
  | nil => intro s t ht; exact ht
  | cons p rest ih =>
    intro s t ht
    obtain ⟨tx, h⟩ := p
    simp only [runLoop]
    by_cases h1 : tx ∈ s.requested_merkle ∨ tx ∈ dictKeys s.merkle_roots
    · rw [if_pos h1]
      exact ih s t ht
    · rw [if_neg h1]
      by_cases h2 : h ≤ 0 ∨ env.local_height < h
      · rw [if_pos h2]
        exact ih s t ht
      · rw [if_neg h2]
        cases env.read_header h with
        | none =>
          dsimp only
          by_cases h3 : h ≤ env.verification_block_height
          · rw [if_pos h3]
            exact ih s t ht
          · rw [if_neg h3]
            exact ih s t ht
        | some hd =>
          dsimp only
          cases env.get_merkle tx h with
          | none => exact ht
          | some m =>
            dsimp only
            exact ih _ t (mem_setAdd.mpr (Or.inl ht))

/-- C7: during a tick's scan, for a transaction that passes the dedup and
height checks and whose header is present: if the transport reports busy
(no message id), the scan records `qbusy := true`, does not mark the
transaction pending, and stops — the remaining transactions are left
untouched (no further state change, no further requests); if the transport
accepts, `qbusy` is cleared, the transaction is marked pending and stays
pending to the end of the scan. -/
theorem C7_busy_stops_scan (env : RunEnv) (s : SPVState) (tx : TxHash)
    (h : Int) (rest : List (TxHash × Int))
    (hreq : tx ∉ s.requested_merkle) (hver : tx ∉ dictKeys s.merkle_roots)
    (hpos : 0 < h) (hloc : h ≤ env.local_height)
    (hhdr : (env.read_header h).isSome) :
    (env.get_merkle tx h = none →
      runLoop env ((tx, h) :: rest) s =
        ({ s with qbusy := true }, [RunEffect.request_merkle tx h]) ∧
      tx ∉ (runLoop env ((tx, h) :: rest) s).1.requested_merkle) ∧
    (∀ m : Nat, env.get_merkle tx h = some m →
      runLoop env ((tx, h) :: rest) s =
        ((runLoop env rest
            { s with qbusy := false,
                     requested_merkle := setAdd s.requested_merkle tx }).1,
         RunEffect.request_merkle tx h ::
           (runLoop env rest
             { s with qbusy := false,
                      requested_merkle := setAdd s.requested_merkle tx }).2) ∧
      tx ∈ (runLoop env ((tx, h) :: rest) s).1.requested_merkle) := by
  obtain ⟨hd, hrd⟩ := Option.isSome_iff_exists.mp hhdr
  have hskip : ¬ (tx ∈ s.requested_merkle ∨ tx ∈ dictKeys s.merkle_roots) :=
    not_or.mpr ⟨hreq, hver⟩
  have hht : ¬ (h ≤ 0 ∨ env.local_height < h) := by
    push_neg
    exact ⟨hpos, hloc⟩
  constructor
  · intro hbusy
    have heq : runLoop env ((tx, h) :: rest) s =
        ({ s with qbusy := true }, [RunEffect.request_merkle tx h]) := by
      simp only [runLoop, if_neg hskip, if_neg hht, hrd, hbusy]
    refine ⟨heq, ?_⟩
    rw [heq]
    exact hreq
  · intro m hacc
    have heq : runLoop env ((tx, h) :: rest) s =
        ((runLoop env rest
            { s with qbusy := false,
                     requested_merkle := setAdd s.requested_merkle tx }).1,
         RunEffect.request_merkle tx h ::
           (runLoop env rest
             { s with qbusy := false,
                      requested_merkle := setAdd s.requested_merkle tx }).2) := by
      simp only [runLoop, if_neg hskip, if_neg hht, hrd, hacc]
    refine ⟨heq, ?_⟩
    rw [heq]
    exact runLoop_requested_mono env rest _ tx (mem_setAdd.mpr (Or.inr rfl))

/-- Busy-transport environment for the C7 witness. -/
def envBusyC : RunEnv :=
  { envC with get_merkle := fun _ _ => none }

theorem C7_busy_stops_scan_witness :
    runLoop envBusyC [(leafC, 100)] (initState 0) =
      ({ initState 0 with qbusy := true }, [RunEffect.request_merkle leafC 100]) ∧
    leafC ∉ (runLoop envBusyC [(leafC, 100)] (initState 0)).1.requested_merkle :=
  (C7_busy_stops_scan envBusyC (initState 0) leafC 100 []
    (by simp [initState]) (by simp [initState, dictKeys])
    (by decide) (by decide) (by rfl)).1 rfl

/-! ## C5: failure branches of the response handler -/

/-- C5: on every failure branch of the response handler — explicit
transport error, malformed proof, missing header at the response's block
height, or a recomputed root differing from the header's stored root — the
handler returns with the verified map and the pending set exactly as they
were before the call: the state is unchanged (the transaction stays
pending), and the only effects are logs, never a wallet recording. -/
theorem C5_failure_leaves_state_unchanged (dh : Bytes → Bytes) (env : VerifyEnv)
    (s : SPVState) (r : Response)
    (hfail :
      r.error = true ∨
      hash_merkle_root dh r.merkle r.tx_hash r.pos = none ∨
      (∃ root, hash_merkle_root dh r.merkle r.tx_hash r.pos = some root ∧
        env.read_header r.block_height = none) ∨
      (∃ root header, hash_merkle_root dh r.merkle r.tx_hash r.pos = some root ∧
        env.read_header r.block_height = some header ∧
        header.merkle_root ≠ root)) :
    (verify_merkle dh env s r).1 = s ∧
    ∀ e ∈ (verify_merkle dh env s r).2, e = WalletEffect.logError := by
  by_cases hclean : s.cleaned_up
  · simp [verify_merkle, hclean]
  · by_cases herr : r.error
    · simp [verify_merkle, hclean, herr]
    · rcases hfail with herr2 | hnone | ⟨root, hroot, hnohdr⟩ |
        ⟨root, header, hroot, hhdr, hne⟩
      · exact absurd herr2 (by simpa using herr)
      · simp [verify_merkle, hclean, herr, hnone]
      · simp [verify_merkle, hclean, herr, hroot, hnohdr]
      · simp [verify_merkle, hclean, herr, hroot, hhdr, if_pos hne, hne]

/-- Error-carrying response for the C5 witness. -/
def rErrC : Response :=
  { rC with error := true }

theorem C5_failure_leaves_state_unchanged_witness :
    (verify_merkle dhC venvC (initState 0) rErrC).1 = initState 0 ∧
    ∀ e ∈ (verify_merkle dhC venvC (initState 0) rErrC).2, e = WalletEffect.logError :=
  C5_failure_leaves_state_unchanged dhC venvC (initState 0) rErrC (Or.inl rfl)

/-! ## C3: delivering the identical successful response twice -/

/-- State with one pending request, for the C3 scenarios. -/
def sPendC : SPVState :=
  { initState 0 with requested_merkle := [leafC] }

/-- C3 counterexample: after a successful response for `leafC` has been
fully processed once, delivering the identical response again is not free
of processing: `verify_merkle` has no pending-set membership check, so the
second call verifies the proof again and calls the wallet store again
(`add_verified_tx`, then persist + notification) instead of being a no-op. -/
theorem C3_counterexample :
    (verify_merkle dhC venvC (verify_merkle dhC venvC sPendC rC).1 rC).2 =
      [WalletEffect.add_verified_tx leafC 100 7 0, WalletEffect.save_verified_tx,
       WalletEffect.wallet_updated] := by
  decide

theorem dictInsert_of_mem {m : List (TxHash × TxHash)} {k : TxHash} (v : TxHash)
    (h : k ∈ dictKeys m) :
    dictInsert m k v = m.map (fun p => if p.1 = k then (k, v) else p) := by
  unfold dictInsert
  rw [if_pos h]

theorem map_replace_dictInsert (l : List (TxHash × TxHash)) (k v : TxHash) :
    (dictInsert l k v).map (fun p => if p.1 = k then (k, v) else p) = dictInsert l k v := by
  unfold dictInsert
  by_cases hk : k ∈ dictKeys l
  · rw [if_pos hk, List.map_map]
    apply List.map_congr_left
    intro p _
    by_cases hpk : p.1 = k
    · simp [Function.comp, hpk]
    · simp [Function.comp, hpk]
  · rw [if_neg hk, List.map_append]
    have hl : l.map (fun p => if p.1 = k then (k, v) else p) = l := by
      have : ∀ p ∈ l, (if p.1 = k then (k, v) else p) = p := by
        intro p hp
        rw [if_neg]
        intro hpk
        exact hk (List.mem_map.mpr ⟨p, hp, hpk⟩)
      calc l.map (fun p => if p.1 = k then (k, v) else p) = l.map id :=
            List.map_congr_left this
        _ = l := List.map_id l
    rw [hl]
    simp

theorem dictInsert_idem (l : List (TxHash × TxHash)) (k v : TxHash) :
    dictInsert (dictInsert l k v) k v = dictInsert l k v := by
  rw [dictInsert_of_mem v (mem_dictKeys_dictInsert.mpr (Or.inl rfl))]
  exact map_replace_dictInsert l k v

theorem setDiscard_of_not_mem {l : List TxHash} {t : TxHash} (h : t ∉ l) :
    setDiscard l t = l := by
  apply List.filter_eq_self.mpr
  intro x hx
  simp only [decide_eq_true_iff]
  rintro rfl
  exact h hx

theorem setDiscard_idem (l : List TxHash) (t : TxHash) :
    setDiscard (setDiscard l t) t = setDiscard l t :=
  setDiscard_of_not_mem (fun hc => (mem_setDiscard.mp hc).2 rfl)

/-- C3 (amended): delivering the identical successful response a second
time leaves the scheduler state exactly where the first call put it (the
re-inserted verified entry and the re-discarded pending marker change
nothing) — but the second call is NOT a no-op in its processing: there is
no membership check in `verify_merkle`, so the handler verifies the
response again and repeats the wallet recording. -/
theorem C3_second_identical_response (dh : Bytes → Bytes) (env : VerifyEnv)
    (s : SPVState) (r : Response) (root : TxHash) (header : Header)
    (hclean : s.cleaned_up = false) (herr : r.error = false)
    (hroot : hash_merkle_root dh r.merkle r.tx_hash r.pos = some root)
    (hhdr : env.read_header r.block_height = some header)
    (hmatch : header.merkle_root = root) :
    (verify_merkle dh env (verify_merkle dh env s r).1 r).1 =
      (verify_merkle dh env s r).1 ∧
    WalletEffect.add_verified_tx r.tx_hash r.block_height header.timestamp r.pos ∈
      (verify_merkle dh env (verify_merkle dh env s r).1 r).2 := by
  have hne : ¬ (header.merkle_root ≠ root) := by simp [hmatch]
  have h1 : (verify_merkle dh env s r).1 =
      { s with merkle_roots := dictInsert s.merkle_roots r.tx_hash root,
               requested_merkle := setDiscard s.requested_merkle r.tx_hash } := by
    simp [verify_merkle, hclean, herr, hroot, hhdr, hne]
  rw [h1]
  constructor
  · have h2 : (verify_merkle dh env
        { s with merkle_roots := dictInsert s.merkle_roots r.tx_hash root,
                 requested_merkle := setDiscard s.requested_merkle r.tx_hash } r).1 =
        { s with
            merkle_roots :=
              dictInsert (dictInsert s.merkle_roots r.tx_hash root) r.tx_hash root,
            requested_merkle :=
              setDiscard (setDiscard s.requested_merkle r.tx_hash) r.tx_hash } := by
      simp [verify_merkle, hclean, herr, hroot, hhdr, hne]
    rw [h2, dictInsert_idem, setDiscard_idem]
  · simp only [verify_merkle, hclean, Bool.false_eq_true, if_false, herr, hroot,
      hhdr, hne, if_neg hne]
    split
    · exact List.mem_cons_self _ _
    · exact List.mem_cons_self _ _

theorem C3_second_identical_response_witness :
    (verify_merkle dhC venvC (verify_merkle dhC venvC sPendC rC).1 rC).1 =
      (verify_merkle dhC venvC sPendC rC).1 ∧
    WalletEffect.add_verified_tx rC.tx_hash rC.block_height hdrC.timestamp rC.pos ∈
      (verify_merkle dhC venvC (verify_merkle dhC venvC sPendC rC).1 rC).2 :=
  C3_second_identical_response dhC venvC sPendC rC leafC hdrC rfl rfl
    (by decide) rfl rfl

/-! ## C4: what actually makes the verification fail -/

/-- C4 counterexample: a negative position does not make `hash_merkle_root`
fail — with a well-formed leaf and sibling it returns a hash, choosing the
combine order through Python's arithmetic shift (`(-1) >> 0 & 1 = 1`, so
the sibling is concatenated on the left). -/
theorem C4_counterexample :
    hash_merkle_root dhC [sibC] leafC (-1) =
      some (hash_encode (dhC (sibC.reverse ++ leafC.reverse))) := by
  decide

theorem hmrLoop_isSome (dh : Bytes → Bytes) (pos : Int) :
    ∀ (l : List TxHash) (i : Nat) (h : Bytes),
      (∀ x ∈ l, (hash_decode x).isSome) → (hmrLoop dh pos l i h).isSome := by
  intro l
  induction l with
  | nil => intro i h _; rfl
  | cons x xs ih =>
    intro i h hall
    have hx := hall x (List.mem_cons_self x xs)
    obtain ⟨d, hd⟩ := Option.isSome_iff_exists.mp hx
    simp only [hmrLoop, hd]
    exact ih (i + 1) _ (fun y hy => hall y (List.mem_cons_of_mem x hy))

/-- C4 (amended): only malformed hashes make the Merkle verification fail,
not negative positions: with a well-formed leaf and well-formed siblings,
`hash_merkle_root` returns a hash for every integer position, negative ones
included (Python's arithmetic shift handles them silently); and whenever
the computation does fail, the response handler logs and returns with the
state untouched, leaving the transaction pending. -/
theorem C4_malformed_hash_only_failure (dh : Bytes → Bytes) (env : VerifyEnv)
    (s : SPVState) (r : Response) (merkle_s : List TxHash) (target_hash : TxHash)
    (pos : Int) :
    ((hash_decode target_hash).isSome →
      (∀ x ∈ merkle_s, (hash_decode x).isSome) →
      (hash_merkle_root dh merkle_s target_hash pos).isSome) ∧
    (s.cleaned_up = false → r.error = false →
      hash_merkle_root dh r.merkle r.tx_hash r.pos = none →
      verify_merkle dh env s r = (s, [WalletEffect.logError])) := by
  constructor
  · intro htgt hall
    obtain ⟨h0, hh0⟩ := Option.isSome_iff_exists.mp htgt
    simp only [hash_merkle_root, hh0]
    have hs := hmrLoop_isSome dh pos merkle_s 0 h0 hall
    obtain ⟨v, hv⟩ := Option.isSome_iff_exists.mp hs
    simp [hv]
  · intro hclean herr hnone
    simp [verify_merkle, hclean, herr, hnone]

/-- Response carrying a malformed (too short) sibling hash, for the C4
witness. -/
def rBadC : Response :=
  { rC with merkle := [[1, 2]] }

theorem C4_malformed_hash_only_failure_witness :
    (hash_merkle_root dhC [sibC] leafC (-3)).isSome ∧
    verify_merkle dhC venvC sPendC rBadC = (sPendC, [WalletEffect.logError]) :=
  ⟨(C4_malformed_hash_only_failure dhC venvC sPendC rBadC [sibC] leafC (-3)).1
      (by decide) (by decide),
   (C4_malformed_hash_only_failure dhC venvC sPendC rBadC [sibC] leafC (-3)).2
      rfl rfl (by decide)⟩

/-! ## C2: the dedup invariant at every observation point -/

/-- The dedup invariant: no transaction hash is simultaneously a key of the
verified map and a member of the pending set. -/
def DisjointMR (s : SPVState) : Prop :=
  ∀ t : TxHash, t ∈ dictKeys s.merkle_roots → t ∉ s.requested_merkle

theorem runLoop_preserves_disjoint (env : RunEnv) :
    ∀ (l : List (TxHash × Int)) (s : SPVState),
      DisjointMR s → DisjointMR (runLoop env l s).1 := by
  intro l
  induction l with
  | nil => intro s hs; exact hs
  | cons p rest ih =>
    intro s hs
    obtain ⟨tx, h⟩ := p
    simp only [runLoop]
    by_cases h1 : tx ∈ s.requested_merkle ∨ tx ∈ dictKeys s.merkle_roots
    · rw [if_pos h1]
      exact ih s hs
    · rw [if_neg h1]
      by_cases h2 : h ≤ 0 ∨ env.local_height < h
      · rw [if_pos h2]
        exact ih s hs
      · rw [if_neg h2]
        cases env.read_header h with
        | none =>
          dsimp only
          by_cases h3 : h ≤ env.verification_block_height
          · rw [if_pos h3]
            exact ih s hs
          · rw [if_neg h3]
            exact ih s hs
        | some hd =>
          dsimp only
          cases env.get_merkle tx h with
          | none => exact hs
          | some m =>
            dsimp only
            apply ih
            intro t hkeys hreq
            rcases mem_setAdd.mp hreq with htl | rfl
            · exact hs t hkeys htl
            · exact (not_or.mp h1).2 hkeys

theorem verify_merkle_preserves_disjoint (dh : Bytes → Bytes) (env : VerifyEnv)
    (s : SPVState) (r : Response) (hs : DisjointMR s) :
    DisjointMR (verify_merkle dh env s r).1 := by
  unfold verify_merkle
  by_cases hclean : s.cleaned_up
  · simpa [hclean] using hs
  · by_cases herr : r.error
    · simpa [hclean, herr] using hs
    · cases hroot : hash_merkle_root dh r.merkle r.tx_hash r.pos with
      | none => simpa [hclean, herr, hroot] using hs
      | some root =>
        cases hhdr : env.read_header r.block_height with
        | none => simpa [hclean, herr, hroot, hhdr] using hs
        | some header =>
          by_cases hne : header.merkle_root ≠ root
          · simpa [hclean, herr, hroot, hhdr, hne] using hs
          · simp only [hclean, Bool.false_eq_true, if_false, herr, hroot, hhdr,
              if_neg hne]
            intro t hkeys hreq
            rcases mem_dictKeys_dictInsert.mp hkeys with rfl | hmem
            · exact (mem_setDiscard.mp hreq).2 rfl
            · exact hs t hmem (mem_setDiscard.mp hreq).1

theorem undo_preserves_disjoint (txs : List TxHash) (s : SPVState)
    (hs : DisjointMR s) : DisjointMR (undo_verifications txs s) := by
  intro t hkeys hreq
  exact hs t ((foldlRemove_shrinks txs s t).1 hkeys)
    ((foldlRemove_shrinks txs s t).2 hreq)

theorem run_preserves_disjoint (env : RunEnv) (s : SPVState) (hs : DisjointMR s) :
    DisjointMR (run env s).1 := by
  unfold run
  have hpre : DisjointMR (if s.need_release then releaseInRun s else (s, [])).1 := by
    by_cases h : s.need_release
    · simp only [h, if_true]
      exact hs
    · simp only [h, Bool.false_eq_true, if_false]
      exact hs
  dsimp only
  by_cases hcl : (if s.need_release then releaseInRun s else (s, [])).1.cleaned_up
  · simp only [hcl, if_true]
    exact hpre
  · simp only [hcl, Bool.false_eq_true, if_false]
    by_cases hi : env.has_interface
    · by_cases hb : env.has_blockchain
      · simp only [hi, hb, Bool.not_true, Bool.false_eq_true, if_false]
        have hlp := runLoop_preserves_disjoint env env.unverified _ hpre
        by_cases hch : env.current_blockchain_id ≠
            (runLoop env env.unverified
              (if s.need_release then releaseInRun s else (s, [])).1).1.blockchain_id
        · rw [if_pos hch]
          exact undo_preserves_disjoint _ _ hlp
        · rw [if_neg hch]
          exact hlp
      · simp only [hi, hb, Bool.not_true, Bool.not_false, Bool.false_eq_true,
          if_false, if_true]
        exact hpre
    · simp only [hi, Bool.not_false, if_true]
      exact hpre

/-- The observation points between operations: every state reachable from a
fresh job by completed scheduler ticks, response callbacks, reorg
reconciliations and release requests, under arbitrary environments,
responses and wallet answers. -/
inductive Reachable : SPVState → Prop
  | init (bid : Nat) : Reachable (initState bid)
  | tick (env : RunEnv) {s : SPVState} : Reachable s → Reachable (run env s).1
  | response (dh : Bytes → Bytes) (env : VerifyEnv) (r : Response) {s : SPVState} :
      Reachable s → Reachable (verify_merkle dh env s r).1
  | reorg (txs : List TxHash) {s : SPVState} :
      Reachable s → Reachable (undo_verifications txs s)
  | rel {s : SPVState} : Reachable s → Reachable (release s)

/-- C2: at every observation point reachable from a fresh job — after any
completed tick, any response callback, any reorg reconciliation and any
release request — the set of pending request hashes (`requested_merkle`)
and the key set of the verified map (`merkle_roots`) are disjoint. -/
theorem C2_pending_verified_disjoint (s : SPVState) (hs : Reachable s) :
    DisjointMR s := by
  induction hs with
  | init bid =>
    intro t ht _
    simp [initState, dictKeys] at ht
  | tick env _ ih => exact run_preserves_disjoint _ _ ih
  | response dh env r _ ih => exact verify_merkle_preserves_disjoint _ _ _ _ ih
  | reorg txs _ ih => exact undo_preserves_disjoint _ _ ih
  | rel _ ih => exact ih

theorem C2_pending_verified_disjoint_witness :
    DisjointMR (initState 0) :=
  C2_pending_verified_disjoint (initState 0) (Reachable.init 0)
